import Mathlib

/-!
Shallow embedding of the grading-and-ranking engine of the agentao
repository, together with theorems settling the specification claims.

Source files modelled here:
* src/agentao/validator/graders/float_grader.py   (rubric combiner)
* src/agentao/validator/graders/trueskill_grader.py (rating engine)
* src/agentao/validator/graders/helpers.py        (patch sanitization)
* src/agentao/helpers/helpers.py                  (latency decay)

Python floats are embedded as exact rationals (ℚ) for the arithmetic the
code performs, and as reals (ℝ) where the code applies `math.exp`/`np.exp`.
External collaborators (the `git apply` dry run, the OpenAI oracles and the
`trueskill` library's `rate` function) are passed in as explicit parameters,
so that the functions below are pure embeddings of the repository code.
-/

namespace Agentao

/-! ## float_grader.py: rubric scores and the composite-score combiner -/

/-- Embedding of the pydantic model `FloatGraderScore`
(src/agentao/validator/graders/float_grader.py, lines 42-48). -/
structure FloatGraderScore where
  dynamic_checklist_scores : List ℚ
  addresses_problem_in_statement : ℚ
  logical_solution : ℚ
  brevity_and_cleanliness_of_code : ℚ
  potential_bugs_generated : ℚ
  explanation_of_scores : String
  deriving DecidableEq

/-- Embedding of the sentinel `EMPTY_PATCH_SCORE` (float_grader.py, lines 50-57). -/
def EMPTY_PATCH_SCORE : FloatGraderScore :=
  { dynamic_checklist_scores := []
    addresses_problem_in_statement := 0
    logical_solution := 0
    brevity_and_cleanliness_of_code := 0
    potential_bugs_generated := 0
    explanation_of_scores := "Patch was empty" }

/-- Python's `statistics.mean` on a list of rationals (sum divided by length;
the code only ever calls it on a non-empty list). -/
def pyMean (l : List ℚ) : ℚ := l.sum / l.length

/-- Embedding of `_compute_overall_score` (float_grader.py, lines 70-90). -/
def _compute_overall_score (miner_output_score : FloatGraderScore) : ℚ :=
  let DYNAMIC_CHECKLIST_WEIGHT : ℚ := 0.2
  let ADDRESSES_PROBLEM_WEIGHT : ℚ := 0.3
  let LOGICAL_SOLUTION_WEIGHT : ℚ := 0.25
  let BREVITY_WEIGHT : ℚ := 0.05
  let POTENTIAL_BUGS_WEIGHT : ℚ := 0.2
  let static_score : ℚ :=
    ADDRESSES_PROBLEM_WEIGHT * miner_output_score.addresses_problem_in_statement +
    LOGICAL_SOLUTION_WEIGHT * miner_output_score.logical_solution +
    BREVITY_WEIGHT * miner_output_score.brevity_and_cleanliness_of_code +
    POTENTIAL_BUGS_WEIGHT * (1 - miner_output_score.potential_bugs_generated)
  if miner_output_score.dynamic_checklist_scores = [] then
    static_score / (1 - DYNAMIC_CHECKLIST_WEIGHT)
  else
    static_score +
      DYNAMIC_CHECKLIST_WEIGHT * pyMean miner_output_score.dynamic_checklist_scores

/-! ## helpers.py (agentao/helpers): latency decay -/

/-- Embedding of `exponential_decay` (src/agentao/helpers/helpers.py, lines 43-56):
`0` for `x ≥ N`, otherwise `exp (-x / (N - x))`. -/
noncomputable def exponential_decay (N x : ℝ) : ℝ :=
  if x ≥ N then 0 else Real.exp (-x / (N - x))

/-! ## graders/helpers.py: comment stripping and patch preprocessing

Lines are modelled as `List Char` (a patch line never contains a newline).
-/

/-- Python's `\s` character class (ASCII range), as used by `re` and by
`str.rstrip` on the characters occurring in patches. -/
def pyIsSpace (c : Char) : Bool :=
  c = ' ' || c = '\t' || c = '\n' || c = '\r' || c = '\x0b' || c = '\x0c'

/-- Embedding of `re.sub(r"#.*", "", line)` on a single line: everything from the first
`#` on is removed. -/
def dropInlineComment (cs : List Char) : List Char :=
  cs.takeWhile (fun c => c ≠ '#')

/-- Python's `str.rstrip()`: remove trailing whitespace. -/
def rstripChars : List Char → List Char
  | [] => []
  | c :: cs =>
    match rstripChars cs with
    | [] => if pyIsSpace c then [] else [c]
    | r => c :: r

/-- Embedding of `re.match` of `comment_line_pattern = ^\+\s*#.*` (helpers.py, line 91):
a `+`, then whitespace, then `#`. -/
def isWholeLineComment (cs : List Char) : Bool :=
  cs.head? = some '+' && (cs.tail.dropWhile pyIsSpace).head? = some '#'

/-- One iteration of the loop body of `remove_comments`
(helpers.py, lines 97-107): `none` means the line is dropped. -/
def processLine (cs : List Char) : Option (List Char) :=
  if cs.head? = some '+' then
    if isWholeLineComment cs then none
    else some (rstripChars (dropInlineComment cs))
  else some cs

/-- The whole loop of `remove_comments` over the list of lines of the patch. -/
def remove_comments_lines (lines : List (List Char)) : List (List Char) :=
  lines.filterMap processLine

/-- Split a character list at newline characters (always returns at least
one piece). -/
def splitNl : List Char → List (List Char)
  | [] => [[]]
  | '\n' :: rest => [] :: splitNl rest
  | c :: rest =>
    match splitNl rest with
    | [] => [[c]]
    | h :: t => (c :: h) :: t

/-- Python's `str.splitlines()` for strings whose only line separator is
`\n` (the only separator occurring in unified diffs): like splitting at
`\n` but without a final empty piece. -/
def pySplitlines (cs : List Char) : List (List Char) :=
  let l := splitNl cs
  if l.getLast? = some [] then l.dropLast else l

/-- Embedding of `remove_comments` (helpers.py, lines 83-109). -/
def remove_comments (patch : String) : String :=
  ⟨List.intercalate [Char.ofNat 10] (remove_comments_lines (pySplitlines patch.data))⟩

/-- Result of `preprocess_patch`: the returned string together with the
number of calls made to the patch-cleaning LLM oracle. -/
structure PreprocessResult where
  result : String
  cleaner_calls : ℕ
  deriving DecidableEq

/-- Embedding of `preprocess_patch` (helpers.py, lines 25-80).
`applyOk` is the outcome of the external `git apply --check` dry run and
`cleaner` is the external patch-cleaning LLM oracle; the repository cloning
and logging side effects are not modelled. -/
def preprocess_patch (applyOk : Bool) (patch : String) (cleaner : String → String) :
    PreprocessResult :=
  if applyOk = false then { result := "", cleaner_calls := 0 }
  else
    let processed_patch := remove_comments patch
    if patch = "" then { result := "", cleaner_calls := 0 }
    else
      let cleaned_patch_context := cleaner patch
      let _ := cleaned_patch_context
      { result := processed_patch, cleaner_calls := 1 }

/-- Result of `_grade_miner_solution`: the rubric score together with the
number of calls made to the scoring LLM oracle. -/
structure MinerGradeResult where
  score : FloatGraderScore
  scorer_calls : ℕ
  deriving DecidableEq

/-- Embedding of `_grade_miner_solution` (float_grader.py, lines 93-128).
`scorer` is the external scoring LLM oracle, invoked on the cleaned patch. -/
def _grade_miner_solution (applyOk : Bool) (cleaner : String → String)
    (scorer : String → FloatGraderScore) (patch : String) : MinerGradeResult :=
  let cleaned_patch := (preprocess_patch applyOk patch cleaner).result
  if cleaned_patch = "" then { score := EMPTY_PATCH_SCORE, scorer_calls := 0 }
  else { score := scorer cleaned_patch, scorer_calls := 1 }

/-! ## trueskill_grader.py: the rating engine

Python dictionaries keyed by miner hotkey are embedded as association
lists in insertion order with unique keys; `d[k] = v` is `dictSet`,
`k in d` is `dictContains`, `d[k]` is `dictGet?`. The `trueskill` library
is external to the repository: its environment constants are embedded by
value (default `mu = 25`, `sigma = 25/3`, `beta = 25/6`) and its multi-way
`rate` function is a parameter, constrained only by its documented contract
of returning one rating group per input group with the same keys. -/

/-- Embedding of `trueskill.Rating` (mean and uncertainty). -/
structure Rating where
  mu : ℚ
  sigma : ℚ
  deriving DecidableEq

/-- Embedding of `trueskill.TrueSkill().create_rating()` with default parameters. -/
def create_rating : Rating := { mu := 25, sigma := 25 / 3 }

/-- Embedding of `trueskill.TrueSkill().beta` with default parameters (`25/6`). -/
def env_beta : ℚ := 25 / 6

/-- The conservative skill estimate `mu - 3 * sigma` used by `grade`
(trueskill_grader.py, lines 36 and 39). -/
def conservative (r : Rating) : ℚ := r.mu - 3 * r.sigma

/-- Embedding of `MinerSubmission` (abstract_grader.py, lines 9-13); only
the hotkey is consulted by the rating engine. -/
structure MinerSubmission where
  miner_hotkey : String
  patch : String
  deriving DecidableEq

/-- Embedding of `k in d` on a Python dict embedded as an association list. -/
def dictContains {α : Type} : List (String × α) → String → Bool
  | [], _ => false
  | p :: t, k => p.1 == k || dictContains t k

/-- Embedding of `d[k]` on a Python dict (as an `Option`; the code only subscripts keys
it has inserted). -/
def dictGet? {α : Type} : List (String × α) → String → Option α
  | [], _ => none
  | p :: t, k => if p.1 == k then some p.2 else dictGet? t k

/-- Embedding of `d[k] = v` on a Python dict: update in place, or append on new key. -/
def dictSet {α : Type} : List (String × α) → String → α → List (String × α)
  | [], k, v => [(k, v)]
  | p :: t, k, v => if p.1 == k then (k, v) :: t else p :: dictSet t k v

/-- Keys of a dict, in insertion order. -/
def keysOf {α : Type} (d : List (String × α)) : List String := d.map Prod.fst

/-- Embedding of `TrueSkillGrader.__init__`'s mutable state: the
`self.ratings` dict and the `self.num_runs` counter (which the code
initializes to `0` and never increments). -/
structure TrueSkillGrader where
  ratings : List (String × Rating)
  num_runs : ℕ
  deriving DecidableEq

/-- The `raw_scores` dict built in `update_ratings`
(trueskill_grader.py, lines 52-54). -/
def raw_scores_of (submissions : List MinerSubmission) (float_scores : List ℚ) :
    List (String × ℚ) :=
  (float_scores.zip submissions).foldl
    (fun d p => dictSet d p.2.miner_hotkey p.1) []

/-- Stable insertion for a descending sort by score, equal scores keeping
their relative order, as Python's stable `sorted(..., reverse=True)` does. -/
def insertDesc (p : String × ℚ) : List (String × ℚ) → List (String × ℚ)
  | [] => [p]
  | q :: l => if p.2 ≤ q.2 then q :: insertDesc p l else p :: q :: l

/-- Embedding of `sorted(raw_scores.items(), key=lambda x: x[1], reverse=True)`
(trueskill_grader.py, line 56): stable sort, descending by score. -/
def sortDesc (l : List (String × ℚ)) : List (String × ℚ) :=
  l.foldl (fun acc p => insertDesc p acc) []

/-- The `ratings_groups` list (trueskill_grader.py, lines 58-61): the
entries of `self.ratings` whose key occurs in `raw_scores`, in rating-table
insertion order. Each entry stands for one single-key rating group. -/
def ratings_groups_of (tbl : List (String × Rating)) (raw : List (String × ℚ)) :
    List (String × Rating) :=
  tbl.filter (fun p => dictContains raw p.1)

/-- The position of the first entry with key `k`, mirroring the inner
index-search loop of `update_ratings` (trueskill_grader.py, lines 63-69). -/
def py_index (k : String) : List (String × ℚ) → Option ℕ
  | [] => none
  | q :: l => if q.1 == k then some 0 else (py_index k l).map (· + 1)

/-- The `ranks` list (trueskill_grader.py, lines 63-69): for each rating
group, the index of its key in the sorted score list. -/
def ranks_of (groups : List (String × Rating)) (sorted_scores : List (String × ℚ)) :
    List ℕ :=
  groups.filterMap (fun p => py_index p.1 sorted_scores)

/-- Embedding of `TrueSkillGrader.update_ratings`
(trueskill_grader.py, lines 44-76). `rate` is the external
`trueskill.TrueSkill().rate` function. -/
def update_ratings
    (rate : List (String × Rating) → List ℕ → List (String × Rating))
    (tbl : List (String × Rating))
    (submissions : List MinerSubmission) (float_scores : List ℚ) :
    List (String × Rating) :=
  let raw_scores := raw_scores_of submissions float_scores
  let sorted_scores := sortDesc raw_scores
  let ratings_groups := ratings_groups_of tbl raw_scores
  let new_ratings := rate ratings_groups (ranks_of ratings_groups sorted_scores)
  new_ratings.foldl (fun t p => dictSet t p.1 p.2) tbl

/-- The new-miner initialization loop of `grade`
(trueskill_grader.py, lines 23-25). -/
def init_ratings (tbl : List (String × Rating)) (submissions : List MinerSubmission) :
    List (String × Rating) :=
  submissions.foldl
    (fun t s => if dictContains t s.miner_hotkey then t else t ++ [(s.miner_hotkey, create_rating)])
    tbl

/-- The `num_runs` local of `grade` (trueskill_grader.py, line 31): the
rating update is repeated three times until `self.num_runs` exceeds the
cold-start threshold `5`, and run once afterwards. -/
def grade_num_runs (st : TrueSkillGrader) : ℕ :=
  if st.num_runs > 5 then 1 else 3

/-- The rating table produced by one `grade` call: initialization followed
by `grade_num_runs st` applications of `update_ratings`
(trueskill_grader.py, lines 23-33). -/
def grade_table
    (rate : List (String × Rating) → List ℕ → List (String × Rating))
    (st : TrueSkillGrader) (submissions : List MinerSubmission)
    (float_scores : List ℚ) : List (String × Rating) :=
  (fun t => update_ratings rate t submissions float_scores)^[grade_num_runs st]
    (init_ratings st.ratings submissions)

/-- Embedding of `np.mean([r.mu - 3*r.sigma for r in self.ratings.values()])`
(trueskill_grader.py, line 36): the mean conservative skill over the whole
rating table. -/
def mean_conservative (tbl : List (String × Rating)) : ℚ :=
  pyMean (tbl.map (fun p => conservative p.2))

/-- The rational part of `grade`: the post-call state and, per submission,
the argument `conservative - mean` fed to the logistic squash
(trueskill_grader.py, lines 21-42). `floatGrade` abstracts
`self.float_grader.grade` (which consults the scoring oracle). -/
def grade_args
    (rate : List (String × Rating) → List ℕ → List (String × Rating))
    (floatGrade : List MinerSubmission → List ℚ)
    (st : TrueSkillGrader) (submissions : List MinerSubmission) :
    TrueSkillGrader × List ℚ :=
  let float_scores := floatGrade submissions
  let tblF := grade_table rate st submissions float_scores
  let mean_score := mean_conservative tblF
  ({ ratings := tblF, num_runs := st.num_runs },
   submissions.map fun s =>
     conservative ((dictGet? tblF s.miner_hotkey).getD create_rating) - mean_score)

/-- The logistic squash `1 / (1 + exp (-x))` used in
trueskill_grader.py, line 40. -/
noncomputable def sigmoid (x : ℝ) : ℝ := 1 / (1 + Real.exp (-x))

/-- Embedding of `self.apha = np.log(4) / self.env.beta` (trueskill_grader.py, line 19;
the attribute is really spelled `apha` in the source). -/
noncomputable def apha : ℝ := Real.log 4 / ((env_beta : ℚ) : ℝ)

/-- Embedding of `TrueSkillGrader.grade` (trueskill_grader.py,
lines 21-42): the updated grader state and the reward vector. -/
noncomputable def grade
    (rate : List (String × Rating) → List ℕ → List (String × Rating))
    (floatGrade : List MinerSubmission → List ℚ)
    (st : TrueSkillGrader) (submissions : List MinerSubmission) :
    TrueSkillGrader × List ℝ :=
  ((grade_args rate floatGrade st submissions).1,
   (grade_args rate floatGrade st submissions).2.map fun (q : ℚ) => sigmoid (apha * (q : ℝ)))

/-! ## Spec-side definitions (written from the specification's wording,
for the refinement statements) -/

/-- Spec wording: `conservative_skill = mean − 3·uncertainty`. -/
def spec_conservative_skill (mean uncertainty : ℚ) : ℚ := mean - 3 * uncertainty

/-- Spec wording (amended claim C2): the average of `conservative_skill`
over every participant present in the rating table. -/
def spec_mean_over_all (tbl : List (String × Rating)) : ℚ :=
  (tbl.map (fun p => spec_conservative_skill p.2.mu p.2.sigma)).sum / tbl.length

/-- Spec wording: `alpha = ln(4) / beta`. -/
noncomputable def spec_alpha : ℝ := Real.log 4 / ((env_beta : ℚ) : ℝ)

/-- Spec wording: `reward = sigmoid(alpha · (conservative_skill − round_mean))`. -/
noncomputable def spec_reward (skill round_mean : ℚ) : ℝ :=
  1 / (1 + Real.exp (-(spec_alpha * ((skill - round_mean : ℚ) : ℝ))))

/-- The sort order used for ranking: higher score first. -/
def scoreGe (a b : String × ℚ) : Prop := b.2 ≤ a.2

/-! ## Concrete fixtures used in counterexamples and witnesses -/

/-- A key-preserving stand-in for the external `trueskill.rate` function
(it returns the input groups unchanged), used to instantiate the
rate-parametrized theorems at a concrete input. -/
def rate_id : List (String × Rating) → List ℕ → List (String × Rating) :=
  fun gs _ => gs

/-- A `FloatGrader.grade` stand-in awarding every submission the score 1. -/
def fg_one : List MinerSubmission → List ℚ :=
  fun subs => subs.map (fun _ => 1)

def subA : MinerSubmission := { miner_hotkey := "A", patch := "p" }

def subB : MinerSubmission := { miner_hotkey := "B", patch := "q" }

/-- A grader state past the cold-start threshold whose rating table holds a
participant (`B`) that does not take part in the round under study. -/
def stAB : TrueSkillGrader :=
  { ratings := [("A", { mu := 25, sigma := 0 }), ("B", { mu := 1, sigma := 0 })]
    num_runs := 10 }

def tblAB : List (String × Rating) := [("A", create_rating), ("B", create_rating)]

/-! ## Helper lemmas -/

theorem pyMean_bounds (l : List ℚ) (h : ∀ x ∈ l, 0 ≤ x ∧ x ≤ 1) :
    0 ≤ pyMean l ∧ pyMean l ≤ 1 := by
  rcases eq_or_ne l [] with rfl | hne
  · simp [pyMean]
  · have hlen : (0 : ℚ) < l.length := by
      exact_mod_cast List.length_pos.mpr hne
    have hsum0 : (0 : ℚ) ≤ l.sum := List.sum_nonneg fun x hx => (h x hx).1
    have hsum1 : l.sum ≤ (l.length : ℚ) := by
      have := List.sum_le_card_nsmul l 1 fun x hx => (h x hx).2
      simpa using this
    constructor
    · exact div_nonneg hsum0 hlen.le
    · rw [pyMean, div_le_one hlen]
      exact hsum1

/-! ### Lemmas about the line-processing primitives -/

theorem rstripChars_subset (l : List Char) : ∀ x ∈ rstripChars l, x ∈ l := by
  induction l with
  | nil => simp [rstripChars]
  | cons c cs ih =>
    intro x hx
    rw [rstripChars] at hx
    rcases hr : rstripChars cs with _ | ⟨h, t⟩
    · rw [hr] at hx
      by_cases hsp : pyIsSpace c = true
      · rw [if_pos hsp] at hx
        exact absurd hx (List.not_mem_nil x)
      · rw [if_neg hsp] at hx
        rcases List.mem_singleton.mp hx with rfl
        exact List.mem_cons_self _ _
    · rw [hr] at hx
      rcases List.mem_cons.mp hx with rfl | hx2
      · exact List.mem_cons_self _ _
      · exact List.mem_cons_of_mem _ (ih x (hr ▸ hx2))

theorem rstripChars_head (c : Char) (l : List Char) (hc : pyIsSpace c = false) :
    rstripChars (c :: l) = c :: rstripChars l := by
  rw [rstripChars]
  rcases hr : rstripChars l with _ | ⟨h, t⟩
  · simp [hc]
  · rfl

theorem rstripChars_last (l : List Char) :
    ∀ c, (rstripChars l).getLast? = some c → pyIsSpace c = false := by
  induction l with
  | nil => simp [rstripChars]
  | cons a as ih =>
    intro c hc
    rw [rstripChars] at hc
    rcases hr : rstripChars as with _ | ⟨h, t⟩
    · rw [hr] at hc
      by_cases hsp : pyIsSpace a = true
      · rw [if_pos hsp] at hc
        exact absurd hc (by simp)
      · rw [if_neg hsp] at hc
        simp only [List.getLast?_singleton, Option.some.injEq] at hc
        subst hc
        exact Bool.eq_false_iff.mpr hsp
    · rw [hr] at hc
      rw [List.getLast?_cons_cons] at hc
      exact ih c (hr ▸ hc)

theorem dropInlineComment_no_hash (cs : List Char) :
    ('#' : Char) ∉ dropInlineComment cs := by
  intro hmem
  have := List.mem_takeWhile_imp hmem
  simp at this

theorem mem_of_mem_dropWhile {p : Char → Bool} {l : List Char} {x : Char}
    (h : x ∈ l.dropWhile p) : x ∈ l :=
  (List.dropWhile_sublist p).subset h

/-- Every line kept by `processLine` out of a `+`-prefixed line still starts
with `+` and contains no `#`. -/
theorem processLine_plus_shape (cs out : List Char) (hplus : cs.head? = some '+')
    (hout : processLine cs = some out) :
    out.head? = some '+' ∧ ('#' : Char) ∉ out := by
  rw [processLine, if_pos hplus] at hout
  rcases cs with _ | ⟨c, rest⟩
  · simp at hplus
  · simp only [List.head?_cons, Option.some.injEq] at hplus
    subst hplus
    split at hout
    · exact absurd hout (by simp)
    · have hout2 : out = rstripChars (dropInlineComment ('+' :: rest)) := by
        simpa using hout.symm
      have hplusne : ('+' : Char) ≠ '#' := by decide
      have hdrop : dropInlineComment ('+' :: rest) = '+' :: dropInlineComment rest := by
        simp [dropInlineComment, List.takeWhile_cons, hplusne]
      constructor
      · rw [hout2, hdrop, rstripChars_head '+' _ (by decide)]
        rfl
      · intro hmem
        rw [hout2] at hmem
        exact dropInlineComment_no_hash _ (rstripChars_subset _ _ hmem)

/-- A line not starting with `+` passes through `processLine` verbatim. -/
theorem processLine_nonplus (cs : List Char) (h : ¬ cs.head? = some '+') :
    processLine cs = some cs := by
  rw [processLine, if_neg h]

/-! ## Claim C1: composite score of the sentinel rubric score -/

/-- C1 counterexample: the claim says the combiner maps the sentinel
`EMPTY_PATCH_SCORE` to composite score `0`; in the code it evaluates to
`1/4` (the `0.2 * (1 - bug_risk)` term credits `0.2`, and the empty
checklist branch divides by `0.8`). -/
theorem C1_counterexample : _compute_overall_score EMPTY_PATCH_SCORE ≠ 0 := by
  norm_num [_compute_overall_score, EMPTY_PATCH_SCORE, pyMean]

/-- C1 amended: the combiner maps the sentinel `EMPTY_PATCH_SCORE`
(substituted for every submission whose patch fails sanitization) to the
composite score `1/4`, not `0`. -/
theorem C1_amended_sentinel_composite :
    _compute_overall_score EMPTY_PATCH_SCORE = 1 / 4 := by
  norm_num [_compute_overall_score, EMPTY_PATCH_SCORE, pyMean]

/-! ## Claim C5: combiner on empty checklists, and range of the combiner -/

/-- C5: for a `FloatGraderScore` with empty `dynamic_checklist_scores` the
combiner returns `static_score / 0.8`, where `static_score` is the weighted
sum `0.3, 0.25, 0.05, 0.2 * (1 - bug_risk)` of the rubric fields; and for
every score whose rubric fields and checklist entries lie in `[0,1]` the
combined value lies in `[0,1]`. -/
theorem C5_combine_empty_and_range (s : FloatGraderScore)
    (ha0 : 0 ≤ s.addresses_problem_in_statement) (ha1 : s.addresses_problem_in_statement ≤ 1)
    (hl0 : 0 ≤ s.logical_solution) (hl1 : s.logical_solution ≤ 1)
    (hb0 : 0 ≤ s.brevity_and_cleanliness_of_code) (hb1 : s.brevity_and_cleanliness_of_code ≤ 1)
    (hp0 : 0 ≤ s.potential_bugs_generated) (hp1 : s.potential_bugs_generated ≤ 1)
    (hc : ∀ x ∈ s.dynamic_checklist_scores, 0 ≤ x ∧ x ≤ 1) :
    (s.dynamic_checklist_scores = [] →
      _compute_overall_score s =
        (0.3 * s.addresses_problem_in_statement + 0.25 * s.logical_solution +
         0.05 * s.brevity_and_cleanliness_of_code +
         0.2 * (1 - s.potential_bugs_generated)) / 0.8) ∧
    0 ≤ _compute_overall_score s ∧ _compute_overall_score s ≤ 1 := by
  have hmean := pyMean_bounds s.dynamic_checklist_scores hc
  unfold _compute_overall_score
  refine ⟨fun hnil => by rw [if_pos hnil]; norm_num, ?_, ?_⟩
  · split
    · have : (0 : ℚ) ≤
          0.3 * s.addresses_problem_in_statement + 0.25 * s.logical_solution +
          0.05 * s.brevity_and_cleanliness_of_code +
          0.2 * (1 - s.potential_bugs_generated) := by nlinarith
      positivity
    · nlinarith [hmean.1, hmean.2]
  · split
    · rw [div_le_one (by norm_num)]
      nlinarith
    · nlinarith [hmean.1, hmean.2]

/-- C5 witness. -/
theorem C5_combine_empty_and_range_witness :
    0 ≤ _compute_overall_score
        { dynamic_checklist_scores := [1/2]
          addresses_problem_in_statement := 1
          logical_solution := 0
          brevity_and_cleanliness_of_code := 1
          potential_bugs_generated := 1
          explanation_of_scores := "" } ∧
    _compute_overall_score
        { dynamic_checklist_scores := [1/2]
          addresses_problem_in_statement := 1
          logical_solution := 0
          brevity_and_cleanliness_of_code := 1
          potential_bugs_generated := 1
          explanation_of_scores := "" } ≤ 1 :=
  (C5_combine_empty_and_range _
    (by norm_num) (by norm_num) (by norm_num) (by norm_num) (by norm_num)
    (by norm_num) (by norm_num) (by norm_num)
    (by intro x hx; simp only [List.mem_singleton] at hx; subst hx; norm_num)).2

/-! ## Claim C6: latency decay -/

/-- C6: with a positive threshold `N` (the round timeout in seconds), the
decay function satisfies `decay 0 = 1`, `decay t = 0` for every `t ≥ N`,
and `decay` is strictly decreasing on `[0, N)`. -/
theorem C6_exponential_decay_shape (N : ℝ) (hN : 0 < N) :
    exponential_decay N 0 = 1 ∧
    (∀ t, N ≤ t → exponential_decay N t = 0) ∧
    (∀ t1 t2, 0 ≤ t1 → t1 < t2 → t2 < N →
      exponential_decay N t2 < exponential_decay N t1) := by
  refine ⟨?_, fun t ht => if_pos ht, fun t1 t2 h0 h12 h2N => ?_⟩
  · rw [exponential_decay, if_neg (not_le.mpr hN)]
    simp
  · have h1N : t1 < N := h12.trans h2N
    rw [exponential_decay, if_neg (not_le.mpr h2N),
        exponential_decay, if_neg (not_le.mpr h1N)]
    apply Real.exp_lt_exp.mpr
    have hd1 : (0 : ℝ) < N - t1 := by linarith
    have hd2 : (0 : ℝ) < N - t2 := by linarith
    have : t1 / (N - t1) < t2 / (N - t2) := by
      rw [div_lt_div_iff₀ hd1 hd2]
      nlinarith
    have h2 : -(t2 / (N - t2)) < -(t1 / (N - t1)) := by linarith
    calc -t2 / (N - t2) = -(t2 / (N - t2)) := by ring
      _ < -(t1 / (N - t1)) := h2
      _ = -t1 / (N - t1) := by ring

/-- C6 witness. -/
theorem C6_exponential_decay_shape_witness :
    exponential_decay 2 0 = 1 ∧ exponential_decay 2 2 = 0 ∧
    exponential_decay 2 1 < exponential_decay 2 0 := by
  have h := C6_exponential_decay_shape 2 (by norm_num)
  exact ⟨h.1, h.2.1 2 le_rfl, h.2.2 0 1 le_rfl (by norm_num) (by norm_num)⟩

/-! ## Claim C7: the comment-stripping pass -/

/-- C7 counterexample: the claim exempts `+++` file-header lines and
promises them verbatim, but the code processes every line starting with
`+`; a `+++` header whose file name contains `#` is truncated at the `#`
(and then right-stripped), not reproduced verbatim. -/
theorem C7_counterexample :
    remove_comments_lines [("+++ b/a#b.py").data] ≠ [("+++ b/a#b.py").data] ∧
    remove_comments_lines [("+++ b/a#b.py").data] = [("+++ b/a").data] := by
  constructor
  · decide
  · decide

/-- C7 amended: the pass treats every line starting with `+`, including
`+++` file headers, as an added line. Lines not starting with `+` are
reproduced verbatim (in order and multiplicity); every surviving
`+`-starting line keeps its leading `+`, contains no `#` (whole-line
comments are dropped, inline comment suffixes stripped) and has no trailing
whitespace; and no whole-line-comment added line survives. -/
theorem C7_amended_line_processing (lines : List (List Char)) :
    (remove_comments_lines lines).filter (fun l => !(l.head? == some '+')) =
      lines.filter (fun l => !(l.head? == some '+')) ∧
    (∀ l ∈ remove_comments_lines lines, l.head? = some '+' →
      ('#' : Char) ∉ l ∧ ∀ c, l.getLast? = some c → pyIsSpace c = false) ∧
    (∀ l ∈ lines, isWholeLineComment l = true → l ∉ remove_comments_lines lines) := by
  have hkeep : ∀ l out : List Char, processLine l = some out → l.head? = some '+' →
      out.head? = some '+' ∧ ('#' : Char) ∉ out ∧
      ∀ c, out.getLast? = some c → pyIsSpace c = false := by
    intro l out hout hplus
    obtain ⟨h1, h2⟩ := processLine_plus_shape l out hplus hout
    refine ⟨h1, h2, ?_⟩
    rw [processLine, if_pos hplus] at hout
    split at hout
    · exact absurd hout (by simp)
    · have : out = rstripChars (dropInlineComment l) := by simpa using hout.symm
      rw [this]
      exact rstripChars_last _
  refine ⟨?_, ?_, ?_⟩
  · induction lines with
    | nil => rfl
    | cons a as ih =>
      by_cases hplus : a.head? = some '+'
      · rcases hp : processLine a with _ | b
        · rw [remove_comments_lines, List.filterMap_cons, hp, List.filter_cons]
          have : (!(a.head? == some '+')) = false := by simp [hplus]
          rw [this]
          exact ih
        · have hb : b.head? = some '+' := (processLine_plus_shape a b hplus hp).1
          rw [remove_comments_lines, List.filterMap_cons, hp]
          rw [List.filter_cons, List.filter_cons]
          have h1 : (!(b.head? == some '+')) = false := by simp [hb]
          have h2 : (!(a.head? == some '+')) = false := by simp [hplus]
          rw [h1, h2]
          exact ih
      · rw [remove_comments_lines, List.filterMap_cons, processLine_nonplus a hplus]
        rw [List.filter_cons, List.filter_cons]
        have : (!(a.head? == some '+')) = true := by simp [hplus]
        rw [this]
        split
        · rw [remove_comments_lines] at ih
          rw [ih]
        · rw [remove_comments_lines] at ih
          rw [ih]
  · intro l hl hplus
    obtain ⟨a, ha, hpa⟩ := List.mem_filterMap.mp hl
    by_cases haplus : a.head? = some '+'
    · exact (hkeep a l hpa haplus).2
    · rw [processLine_nonplus a haplus] at hpa
      have : a = l := by simpa using hpa
      subst this
      exact absurd hplus haplus
  · intro a ha hcomment hmem
    have hshape : a.head? = some '+' ∧
        (a.tail.dropWhile pyIsSpace).head? = some '#' := by
      have := hcomment
      rw [isWholeLineComment, Bool.and_eq_true, decide_eq_true_eq,
          decide_eq_true_eq] at this
      exact this
    have hhash : ('#' : Char) ∈ a := by
      rcases hd : a.tail.dropWhile pyIsSpace with _ | ⟨h, t⟩
      · rw [hd] at hshape
        exact absurd hshape.2 (by simp)
      · rw [hd] at hshape
        have hh : h = '#' := by simpa using hshape.2
        subst hh
        have h1 : ('#' : Char) ∈ a.tail :=
          mem_of_mem_dropWhile (hd ▸ List.mem_cons_self _ _)
        rcases a with _ | ⟨c, rest⟩
        · simp at h1
        · exact List.mem_cons_of_mem _ h1
    obtain ⟨b, hb, hpb⟩ := List.mem_filterMap.mp hmem
    by_cases hbplus : b.head? = some '+'
    · exact absurd hhash (hkeep b a hpb hbplus).2.1
    · rw [processLine_nonplus b hbplus] at hpb
      have : b = a := by simpa using hpb
      subst this
      exact absurd hshape.1 hbplus

/-- C7 witness: a whole-line comment added line is really dropped. -/
theorem C7_amended_line_processing_witness :
    ("+# inject").data ∉ remove_comments_lines [("+# inject").data] :=
  (C7_amended_line_processing [("+# inject").data]).2.2
    (("+# inject").data) (by simp) (by decide)

/-! ## Claim C8: fail-fast sanitization and the sentinel path -/

/-- C8: when the dry-run apply fails (as it does on the input
`"not a diff"`), `preprocess_patch` returns the empty sentinel patch
without calling the cleaner oracle; and whenever the sanitized patch is
empty, `_grade_miner_solution` returns exactly the sentinel
`EMPTY_PATCH_SCORE` without calling the scoring oracle. -/
theorem C8_sentinel_paths (applyOk : Bool) (cleaner : String → String)
    (scorer : String → FloatGraderScore) (patch : String) :
    (applyOk = false →
      preprocess_patch applyOk patch cleaner = { result := "", cleaner_calls := 0 } ∧
      _grade_miner_solution applyOk cleaner scorer patch =
        { score := EMPTY_PATCH_SCORE, scorer_calls := 0 }) ∧
    ((preprocess_patch applyOk patch cleaner).result = "" →
      _grade_miner_solution applyOk cleaner scorer patch =
        { score := EMPTY_PATCH_SCORE, scorer_calls := 0 }) := by
  constructor
  · intro h
    subst h
    constructor
    · rw [preprocess_patch]
      simp
    · rw [_grade_miner_solution, preprocess_patch]
      simp
  · intro h
    rw [_grade_miner_solution, if_pos h]

/-- C8 witness: at the concrete failing input `"not a diff"`. -/
theorem C8_sentinel_paths_witness :
    preprocess_patch false "not a diff" (fun s => s) =
      { result := "", cleaner_calls := 0 } ∧
    _grade_miner_solution false (fun s => s) (fun _ => EMPTY_PATCH_SCORE) "not a diff" =
      { score := EMPTY_PATCH_SCORE, scorer_calls := 0 } :=
  (C8_sentinel_paths false (fun s => s) (fun _ => EMPTY_PATCH_SCORE) "not a diff").1 rfl

/-! ## Claim C10: the sanitizer ignores the cleaner oracle's output -/

/-- C10: when the dry-run apply succeeds, the value returned by
`preprocess_patch` is the comment-stripped original patch and is identical
for any two cleaner-oracle behaviors; the cleaner LLM's response is never
incorporated into the returned patch. -/
theorem C10_cleaner_independence (patch : String) (c1 c2 : String → String) :
    preprocess_patch true patch c1 = preprocess_patch true patch c2 ∧
    (preprocess_patch true patch c1).result = remove_comments patch := by
  have hempty : remove_comments "" = "" := by decide
  rw [preprocess_patch, preprocess_patch]
  by_cases h : patch = ""
  · subst h
    simp [hempty]
  · simp [h]

/-! ## Lemmas about the rating engine -/

theorem grade_ratings_eq (rate : List (String × Rating) → List ℕ → List (String × Rating))
    (fg : List MinerSubmission → List ℚ) (st : TrueSkillGrader)
    (subs : List MinerSubmission) :
    (grade rate fg st subs).1.ratings = grade_table rate st subs (fg subs) := rfl

theorem grade_rewards_eq (rate : List (String × Rating) → List ℕ → List (String × Rating))
    (fg : List MinerSubmission → List ℚ) (st : TrueSkillGrader)
    (subs : List MinerSubmission) :
    (grade rate fg st subs).2 = subs.map fun s =>
      sigmoid (apha *
        ((conservative ((dictGet? (grade_table rate st subs (fg subs)) s.miner_hotkey).getD create_rating) -
          mean_conservative (grade_table rate st subs (fg subs)) : ℚ) : ℝ)) := by
  rw [grade]
  rw [show (grade_args rate fg st subs).2 = subs.map fun s =>
      conservative ((dictGet? (grade_table rate st subs (fg subs)) s.miner_hotkey).getD create_rating) -
        mean_conservative (grade_table rate st subs (fg subs)) from rfl]
  rw [List.map_map]
  rfl

/-- The sigmoid used in `grade` is strictly monotone (hence injective). -/
theorem sigmoid_strictMono : StrictMono sigmoid := by
  intro x y hxy
  rw [sigmoid, sigmoid]
  have hy : (0 : ℝ) < 1 + Real.exp (-y) := by positivity
  have : Real.exp (-y) < Real.exp (-x) := Real.exp_lt_exp.mpr (by linarith)
  exact one_div_lt_one_div_of_lt hy (by linarith)

theorem apha_pos : 0 < apha := by
  rw [apha]
  apply div_pos (Real.log_pos (by norm_num))
  rw [env_beta]
  norm_num

/-! ## Claim C3: number of rating-update runs per round -/

/-- C3: one `grade` call applies `update_ratings` exactly
`grade_num_runs st` times to the initialized table; past the cold-start
threshold (`num_runs > 5`) that is exactly once, and in the cold-start
regime it is three times, which lies within 1-3. -/
theorem C3_update_run_count (rate : List (String × Rating) → List ℕ → List (String × Rating))
    (fg : List MinerSubmission → List ℚ) (st : TrueSkillGrader)
    (subs : List MinerSubmission) :
    (st.num_runs > 5 →
      (grade rate fg st subs).1.ratings =
        update_ratings rate (init_ratings st.ratings subs) subs (fg subs)) ∧
    (st.num_runs ≤ 5 →
      (grade rate fg st subs).1.ratings =
        (fun t => update_ratings rate t subs (fg subs))^[3] (init_ratings st.ratings subs)) ∧
    1 ≤ grade_num_runs st ∧ grade_num_runs st ≤ 3 := by
  refine ⟨fun h => ?_, fun h => ?_, ?_, ?_⟩
  · rw [grade_ratings_eq, grade_table, grade_num_runs, if_pos h, Function.iterate_one]
  · rw [grade_ratings_eq, grade_table, grade_num_runs, if_neg (not_lt.mpr h)]
  · rw [grade_num_runs]
    split <;> norm_num
  · rw [grade_num_runs]
    split <;> norm_num

/-- C3 witness: a state past the cold-start threshold really performs a
single update. -/
theorem C3_update_run_count_witness :
    (grade rate_id fg_one { ratings := [], num_runs := 6 } [subA]).1.ratings =
      update_ratings rate_id (init_ratings [] [subA]) [subA] (fg_one [subA]) :=
  (C3_update_run_count rate_id fg_one { ratings := [], num_runs := 6 } [subA]).1
    (by norm_num)

/-! ## Claim C2: the rating-to-reward squash -/

/-- C2 counterexample: the claim computes `round_mean` over exactly this
round's participants. In the state `stAB` the table also holds participant
`B` (not in the round); the code averages the conservative skill over the
whole table, so the reward for the round `[subA]` differs from the claim's
formula `sigmoid(alpha * (skill_A - mean over round participants))`, which
here is `sigmoid 0`. -/
theorem C2_counterexample :
    (grade rate_id fg_one stAB [subA]).2 ≠
      [spec_reward (spec_conservative_skill 25 0)
        (pyMean [spec_conservative_skill 25 0])] := by
  have hAB : (("A" : String) == "B") = false := by decide
  have hBA : (("B" : String) == "A") = false := by decide
  have hargs : (grade_args rate_id fg_one stAB [subA]).2 = [12] := by
    norm_num [grade_args, grade_table, grade_num_runs, stAB, subA, fg_one, rate_id,
      init_ratings, update_ratings, raw_scores_of, sortDesc, insertDesc,
      ratings_groups_of, ranks_of, py_index, dictContains, dictSet, dictGet?,
      mean_conservative, conservative, pyMean, create_rating, keysOf,
      Function.iterate_one, hAB, hBA]
  have hL : (grade rate_id fg_one stAB [subA]).2 =
      [sigmoid (apha * ((12 : ℚ) : ℝ))] := by
    rw [show (grade rate_id fg_one stAB [subA]).2 =
        (grade_args rate_id fg_one stAB [subA]).2.map
          (fun (q : ℚ) => sigmoid (apha * (q : ℝ))) from rfl, hargs]
    rfl
  have hR : spec_reward (spec_conservative_skill 25 0)
      (pyMean [spec_conservative_skill 25 0]) = sigmoid 0 := by
    simp only [spec_reward, sigmoid, spec_conservative_skill]
    norm_num [pyMean, Real.exp_zero]
  rw [hL, hR]
  intro heq
  have h1 : sigmoid (apha * ((12 : ℚ) : ℝ)) = sigmoid 0 := by simpa using heq
  have h2 : apha * ((12 : ℚ) : ℝ) = 0 := sigmoid_strictMono.injective h1
  have h3 : apha * 12 = 0 := by push_cast at h2; exact h2
  nlinarith [apha_pos]

/-- C2 amended: for each of this round's participants, the reward is
`sigmoid(alpha * (conservative_skill - mean))` with `alpha = ln(4)/beta`
and `conservative_skill = mean - 3*uncertainty`, where the centering mean
is the average conservative skill over EVERY participant in the rating
table after this round's updates, not only this round's participants. -/
theorem C2_amended_reward_formula
    (rate : List (String × Rating) → List ℕ → List (String × Rating))
    (fg : List MinerSubmission → List ℚ) (st : TrueSkillGrader)
    (subs : List MinerSubmission) :
    (grade rate fg st subs).2 = subs.map fun s =>
      spec_reward
        (spec_conservative_skill
          (((dictGet? (grade rate fg st subs).1.ratings s.miner_hotkey).getD create_rating).mu)
          (((dictGet? (grade rate fg st subs).1.ratings s.miner_hotkey).getD create_rating).sigma))
        (spec_mean_over_all (grade rate fg st subs).1.ratings) := by
  have hmean : mean_conservative (grade_table rate st subs (fg subs)) =
      spec_mean_over_all (grade_table rate st subs (fg subs)) := by
    simp only [mean_conservative, spec_mean_over_all, pyMean, List.length_map]
    rfl
  rw [grade_rewards_eq]
  rw [show (grade rate fg st subs).1.ratings = grade_table rate st subs (fg subs) from rfl]
  refine congrArg (fun f => List.map f subs) ?_
  funext s
  simp only [sigmoid, spec_reward, hmean]
  rfl

/-! ## Lemmas about the ranking sort -/

theorem insertDesc_perm (p : String × ℚ) (l : List (String × ℚ)) :
    (insertDesc p l).Perm (p :: l) := by
  induction l with
  | nil => exact List.Perm.refl _
  | cons q t ih =>
    rw [insertDesc]
    split
    · exact (ih.cons q).trans (List.Perm.swap p q t)
    · exact List.Perm.refl _

theorem sortDesc_perm_aux (l : List (String × ℚ)) :
    ∀ acc, (l.foldl (fun acc p => insertDesc p acc) acc).Perm (acc ++ l) := by
  induction l with
  | nil => intro acc; simp
  | cons p t ih =>
    intro acc
    rw [List.foldl_cons]
    refine (ih (insertDesc p acc)).trans ?_
    refine (List.Perm.append_right t (insertDesc_perm p acc)).trans ?_
    exact List.perm_middle.symm

theorem sortDesc_perm (l : List (String × ℚ)) : (sortDesc l).Perm l := by
  simpa using sortDesc_perm_aux l []

theorem insertDesc_sorted (p : String × ℚ) (l : List (String × ℚ))
    (h : l.Sorted scoreGe) : (insertDesc p l).Sorted scoreGe := by
  induction l with
  | nil => simp [insertDesc, scoreGe]
  | cons q t ih =>
    rw [List.sorted_cons] at h
    rw [insertDesc]
    split
    · next hpq =>
      rw [List.sorted_cons]
      refine ⟨?_, ih h.2⟩
      intro b hb
      rcases List.mem_cons.mp ((insertDesc_perm p t).mem_iff.mp hb) with rfl | hbt
      · exact hpq
      · exact h.1 b hbt
    · next hpq =>
      rw [List.sorted_cons]
      refine ⟨?_, List.sorted_cons.mpr h⟩
      intro b hb
      rcases List.mem_cons.mp hb with rfl | hbt
      · exact (not_le.mp hpq).le
      · exact le_trans (h.1 b hbt) (not_le.mp hpq).le

theorem sortDesc_sorted_aux (l : List (String × ℚ)) :
    ∀ acc, acc.Sorted scoreGe →
      (l.foldl (fun acc p => insertDesc p acc) acc).Sorted scoreGe := by
  induction l with
  | nil => intro acc hacc; exact hacc
  | cons p t ih =>
    intro acc hacc
    rw [List.foldl_cons]
    exact ih _ (insertDesc_sorted p acc hacc)

theorem sortDesc_sorted (l : List (String × ℚ)) : (sortDesc l).Sorted scoreGe :=
  sortDesc_sorted_aux l [] List.sorted_nil

theorem py_index_get (k : String) (l : List (String × ℚ)) (i : ℕ)
    (h : py_index k l = some i) : ∃ q, l.get? i = some q ∧ q.1 = k := by
  induction l generalizing i with
  | nil => simp [py_index] at h
  | cons q t ih =>
    rw [py_index] at h
    by_cases hq : (q.1 == k) = true
    · rw [if_pos hq] at h
      obtain rfl : 0 = i := by simpa using h
      exact ⟨q, rfl, by simpa using hq⟩
    · rw [if_neg hq] at h
      obtain ⟨j, hj, rfl⟩ := Option.map_eq_some'.mp h
      obtain ⟨q2, hq2, hk⟩ := ih j hj
      exact ⟨q2, by simpa using hq2, hk⟩

theorem py_index_total (k : String) (l : List (String × ℚ)) (h : k ∈ keysOf l) :
    ∃ i, py_index k l = some i := by
  induction l with
  | nil => simp [keysOf] at h
  | cons q t ih =>
    rw [py_index]
    by_cases hq : (q.1 == k) = true
    · rw [if_pos hq]
      exact ⟨0, rfl⟩
    · rw [if_neg hq]
      have h2 : k ∈ q.1 :: keysOf t := h
      have hkt : k ∈ keysOf t := by
        rcases List.mem_cons.mp h2 with h1 | h3
        · exact absurd (beq_iff_eq.mpr h1.symm) hq
        · exact h3
      obtain ⟨i, hi⟩ := ih hkt
      exact ⟨i + 1, by rw [hi]; rfl⟩

theorem py_index_inj (l : List (String × ℚ)) (k1 k2 : String) (i : ℕ)
    (h1 : py_index k1 l = some i) (h2 : py_index k2 l = some i) : k1 = k2 := by
  obtain ⟨q1, hg1, hk1⟩ := py_index_get k1 l i h1
  obtain ⟨q2, hg2, hk2⟩ := py_index_get k2 l i h2
  rw [hg1] at hg2
  obtain rfl : q1 = q2 := by simpa using hg2
  rw [← hk1, hk2]

theorem ranks_of_length (groups : List (String × Rating)) (sorted : List (String × ℚ))
    (h : ∀ p ∈ groups, p.1 ∈ keysOf sorted) :
    (ranks_of groups sorted).length = groups.length := by
  induction groups with
  | nil => rfl
  | cons p t ih =>
    obtain ⟨i, hi⟩ := py_index_total p.1 sorted (h p (List.mem_cons_self p t))
    rw [ranks_of, List.filterMap_cons, hi, List.length_cons]
    rw [ranks_of] at ih
    exact congrArg Nat.succ (ih fun q hq => h q (List.mem_cons_of_mem p hq))

theorem ranks_of_nodup (groups : List (String × Rating)) (sorted : List (String × ℚ))
    (hnd : (keysOf groups).Nodup) (h : ∀ p ∈ groups, p.1 ∈ keysOf sorted) :
    (ranks_of groups sorted).Nodup := by
  induction groups with
  | nil => simp [ranks_of]
  | cons p t ih =>
    obtain ⟨i, hi⟩ := py_index_total p.1 sorted (h p (List.mem_cons_self p t))
    rw [ranks_of, List.filterMap_cons, hi, List.nodup_cons]
    have hnd2 : (keysOf t).Nodup ∧ p.1 ∉ keysOf t := by
      have hnd1 : (p.1 :: keysOf t).Nodup := hnd
      have := List.nodup_cons.mp hnd1
      exact ⟨this.2, this.1⟩
    constructor
    · intro hmem
      obtain ⟨q, hq, hqi⟩ := List.mem_filterMap.mp hmem
      have hq1 : q.1 = p.1 := py_index_inj sorted q.1 p.1 i hqi hi
      exact hnd2.2 (hq1 ▸ List.mem_map_of_mem Prod.fst hq)
    · rw [ranks_of] at ih
      exact ih hnd2.1 fun q hq => h q (List.mem_cons_of_mem p hq)

/-! ## Claim C4: rank assignment within one round -/

/-- C4 counterexample: two participants with equal composite score 1 are
assigned the distinct ranks 0 and 1 (their indices in the stable
descending sort), not equal rank as the claim states. -/
theorem C4_counterexample :
    ranks_of (ratings_groups_of tblAB (raw_scores_of [subA, subB] [1, 1]))
      (sortDesc (raw_scores_of [subA, subB] [1, 1])) = [0, 1] ∧
    ∀ r : ℕ,
      ranks_of (ratings_groups_of tblAB (raw_scores_of [subA, subB] [1, 1]))
        (sortDesc (raw_scores_of [subA, subB] [1, 1])) ≠ [r, r] := by
  have h01 : ranks_of (ratings_groups_of tblAB (raw_scores_of [subA, subB] [1, 1]))
      (sortDesc (raw_scores_of [subA, subB] [1, 1])) = [0, 1] := by decide
  refine ⟨h01, fun r hr => ?_⟩
  rw [h01] at hr
  obtain ⟨h1, h2⟩ : 0 = r ∧ 1 = r := by simpa using hr
  omega

/-- C4 amended: the rank of each participant is its key's index in the
stable descending sort of the round's score list (`sortDesc`), which is a
permutation of the scores sorted so that higher scores come first; with
distinct participant keys everyone present receives a rank and
participants with equal scores receive DISTINCT ranks (ties are broken by
dict insertion order), one rank per rating group. -/
theorem C4_amended_rank_assignment (raw : List (String × ℚ))
    (groups : List (String × Rating))
    (hnd : (keysOf groups).Nodup)
    (hmem : ∀ p ∈ groups, p.1 ∈ keysOf raw) :
    (sortDesc raw).Perm raw ∧ (sortDesc raw).Sorted scoreGe ∧
    (ranks_of groups (sortDesc raw)).length = groups.length ∧
    (ranks_of groups (sortDesc raw)).Nodup := by
  have hkeys : ∀ p ∈ groups, p.1 ∈ keysOf (sortDesc raw) := by
    intro p hp
    have hperm : (keysOf (sortDesc raw)).Perm (keysOf raw) :=
      (sortDesc_perm raw).map Prod.fst
    exact hperm.mem_iff.mpr (hmem p hp)
  exact ⟨sortDesc_perm raw, sortDesc_sorted raw,
    ranks_of_length _ _ hkeys, ranks_of_nodup _ _ hnd hkeys⟩

/-- C4 witness. -/
theorem C4_amended_rank_assignment_witness :
    (ranks_of tblAB (sortDesc [("A", (1 : ℚ)), ("B", 1)])).length = tblAB.length ∧
    (ranks_of tblAB (sortDesc [("A", (1 : ℚ)), ("B", 1)])).Nodup := by
  have h := C4_amended_rank_assignment [("A", (1 : ℚ)), ("B", 1)] tblAB
    (by decide) (by decide)
  exact ⟨h.2.2.1, h.2.2.2⟩

/-! ## Lemmas about the embedded Python dict operations -/

theorem dictContains_iff {α : Type} (d : List (String × α)) (k : String) :
    dictContains d k = true ↔ k ∈ keysOf d := by
  induction d with
  | nil => simp [dictContains, keysOf]
  | cons p t ih =>
    rw [dictContains, Bool.or_eq_true, ih]
    constructor
    · rintro (h1 | h2)
      · exact (beq_iff_eq.mp h1).symm ▸ List.mem_cons_self _ _
      · exact List.mem_cons_of_mem _ h2
    · intro h
      rcases List.mem_cons.mp (show k ∈ p.1 :: keysOf t from h) with h1 | h2
      · exact Or.inl (beq_iff_eq.mpr h1.symm)
      · exact Or.inr h2

theorem keysOf_dictSet_mem {α : Type} (d : List (String × α)) (k : String) (v : α)
    (h : k ∈ keysOf d) : keysOf (dictSet d k v) = keysOf d := by
  induction d with
  | nil => simp [keysOf] at h
  | cons p t ih =>
    rw [dictSet]
    by_cases hp : (p.1 == k) = true
    · rw [if_pos hp]
      show k :: keysOf t = p.1 :: keysOf t
      rw [beq_iff_eq.mp hp]
    · rw [if_neg hp]
      show p.1 :: keysOf (dictSet t k v) = p.1 :: keysOf t
      have hkt : k ∈ keysOf t := by
        rcases List.mem_cons.mp (show k ∈ p.1 :: keysOf t from h) with h1 | h2
        · exact absurd (beq_iff_eq.mpr h1.symm) hp
        · exact h2
      rw [ih hkt]

theorem dictSet_keys_sub {α : Type} (d : List (String × α)) (k : String) (v : α) :
    ∀ k2 ∈ keysOf (dictSet d k v), k2 ∈ keysOf d ∨ k2 = k := by
  induction d with
  | nil =>
    intro k2 h
    rcases List.mem_singleton.mp (show k2 ∈ [k] from h) with rfl
    exact Or.inr rfl
  | cons p t ih =>
    intro k2 h
    rw [dictSet] at h
    by_cases hp : (p.1 == k) = true
    · rw [if_pos hp] at h
      rcases List.mem_cons.mp (show k2 ∈ k :: keysOf t from h) with rfl | h2
      · exact Or.inr rfl
      · exact Or.inl (List.mem_cons_of_mem _ h2)
    · rw [if_neg hp] at h
      rcases List.mem_cons.mp (show k2 ∈ p.1 :: keysOf (dictSet t k v) from h) with rfl | h2
      · exact Or.inl (List.mem_cons_self _ _)
      · rcases ih k2 h2 with h3 | h3
        · exact Or.inl (List.mem_cons_of_mem _ h3)
        · exact Or.inr h3

theorem dictGet?_dictSet_ne {α : Type} (d : List (String × α)) (k : String) (v : α)
    (k2 : String) (h : k2 ≠ k) : dictGet? (dictSet d k v) k2 = dictGet? d k2 := by
  induction d with
  | nil =>
    show dictGet? [(k, v)] k2 = none
    rw [dictGet?, if_neg (by simpa using fun he => h he.symm)]
    rfl
  | cons p t ih =>
    rw [dictSet]
    by_cases hp : (p.1 == k) = true
    · rw [if_pos hp, dictGet?, dictGet?]
      have hk2 : ¬ ((k == k2) = true) := by simpa using fun he => h he.symm
      have hp2 : ¬ ((p.1 == k2) = true) := by
        rw [beq_iff_eq.mp hp]
        exact hk2
      rw [if_neg hk2, if_neg hp2]
    · rw [if_neg hp, dictGet?, dictGet?]
      by_cases hq : (p.1 == k2) = true
      · rw [if_pos hq, if_pos hq]
      · rw [if_neg hq, if_neg hq]
        exact ih

theorem dictGet?_eq_none {α : Type} (d : List (String × α)) (k : String)
    (h : k ∉ keysOf d) : dictGet? d k = none := by
  induction d with
  | nil => rfl
  | cons p t ih =>
    rw [dictGet?]
    have hne : ¬ ((p.1 == k) = true) := by
      intro hbe
      exact h (List.mem_cons.mpr (Or.inl (beq_iff_eq.mp hbe).symm))
    rw [if_neg hne]
    exact ih fun h2 => h (List.mem_cons_of_mem _ h2)

theorem dictGet?_append_left {α : Type} (d L : List (String × α)) (k : String)
    (h : k ∈ keysOf d) : dictGet? (d ++ L) k = dictGet? d k := by
  induction d with
  | nil => simp [keysOf] at h
  | cons p t ih =>
    rw [List.cons_append, dictGet?, dictGet?]
    by_cases hp : (p.1 == k) = true
    · rw [if_pos hp, if_pos hp]
    · rw [if_neg hp, if_neg hp]
      apply ih
      rcases List.mem_cons.mp (show k ∈ p.1 :: keysOf t from h) with h1 | h2
      · exact absurd (beq_iff_eq.mpr h1.symm) hp
      · exact h2

theorem dictGet?_append_right {α : Type} (d L : List (String × α)) (k : String)
    (h : k ∉ keysOf d) : dictGet? (d ++ L) k = dictGet? L k := by
  induction d with
  | nil => rfl
  | cons p t ih =>
    rw [List.cons_append, dictGet?]
    have hne : ¬ ((p.1 == k) = true) := by
      intro hbe
      exact h (List.mem_cons.mpr (Or.inl (beq_iff_eq.mp hbe).symm))
    rw [if_neg hne]
    exact ih fun h2 => h (List.mem_cons_of_mem _ h2)

theorem foldl_dictSet_get_ne {α : Type} (L : List (String × α)) (k : String) :
    ∀ d, (∀ p ∈ L, p.1 ≠ k) →
      dictGet? (L.foldl (fun t p => dictSet t p.1 p.2) d) k = dictGet? d k := by
  induction L with
  | nil => intro d _; rfl
  | cons p t ih =>
    intro d h
    rw [List.foldl_cons]
    rw [ih _ fun q hq => h q (List.mem_cons_of_mem _ hq)]
    exact dictGet?_dictSet_ne d p.1 p.2 k
      (fun he => h p (List.mem_cons_self _ _) he.symm)

theorem foldl_dictSet_keys {α : Type} (L : List (String × α)) :
    ∀ d, (∀ p ∈ L, p.1 ∈ keysOf d) →
      keysOf (L.foldl (fun t p => dictSet t p.1 p.2) d) = keysOf d := by
  induction L with
  | nil => intro d _; rfl
  | cons p t ih =>
    intro d h
    rw [List.foldl_cons]
    have hset : keysOf (dictSet d p.1 p.2) = keysOf d :=
      keysOf_dictSet_mem d p.1 p.2 (h p (List.mem_cons_self _ _))
    rw [ih _ fun q hq => hset ▸ h q (List.mem_cons_of_mem _ hq), hset]

theorem filter_key_length_one {α : Type} (d : List (String × α)) (k : String)
    (hnd : (keysOf d).Nodup) (h : k ∈ keysOf d) :
    (d.filter (fun p => p.1 == k)).length = 1 := by
  induction d with
  | nil => simp [keysOf] at h
  | cons p t ih =>
    obtain ⟨hp_nin, hnd_t⟩ := List.nodup_cons.mp (show (p.1 :: keysOf t).Nodup from hnd)
    rw [List.filter_cons]
    by_cases hp : (p.1 == k) = true
    · rw [if_pos hp]
      have ht : t.filter (fun q => q.1 == k) = [] := by
        rw [List.filter_eq_nil_iff]
        intro q hq hqk
        exact hp_nin
          ((beq_iff_eq.mp hp ▸ beq_iff_eq.mp hqk ▸ List.mem_map_of_mem Prod.fst hq))
      rw [ht]
      rfl
    · rw [if_neg hp]
      apply ih hnd_t
      rcases List.mem_cons.mp (show k ∈ p.1 :: keysOf t from h) with h1 | h2
      · exact absurd (beq_iff_eq.mpr h1.symm) hp
      · exact h2

/-! ## Lemmas about initialization and the rating-table update -/

theorem init_ratings_cons (tbl : List (String × Rating)) (s : MinerSubmission)
    (subs : List MinerSubmission) :
    init_ratings tbl (s :: subs) =
      init_ratings (if dictContains tbl s.miner_hotkey then tbl
        else tbl ++ [(s.miner_hotkey, create_rating)]) subs := rfl

theorem keysOf_append_single (tbl : List (String × Rating)) (k : String) (v : Rating) :
    keysOf (tbl ++ [(k, v)]) = keysOf tbl ++ [k] := by
  simp [keysOf]

theorem init_keys_mono (subs : List MinerSubmission) :
    ∀ tbl k, k ∈ keysOf tbl → k ∈ keysOf (init_ratings tbl subs) := by
  induction subs with
  | nil => intro tbl k h; exact h
  | cons s rest ih =>
    intro tbl k h
    rw [init_ratings_cons]
    apply ih
    split
    · exact h
    · rw [keysOf_append_single]
      exact List.mem_append_left _ h

theorem init_mem (subs : List MinerSubmission) :
    ∀ tbl, ∀ s ∈ subs, s.miner_hotkey ∈ keysOf (init_ratings tbl subs) := by
  induction subs with
  | nil => intro tbl s h; simp at h
  | cons s0 rest ih =>
    intro tbl s hs
    rcases List.mem_cons.mp hs with rfl | hrest
    · rw [init_ratings_cons]
      apply init_keys_mono
      split
      · next hcont => exact (dictContains_iff tbl _).mp hcont
      · rw [keysOf_append_single]
        exact List.mem_append_right _ (List.mem_singleton.mpr rfl)
    · rw [init_ratings_cons]
      exact ih _ s hrest

theorem init_nodup (subs : List MinerSubmission) :
    ∀ tbl, (keysOf tbl).Nodup → (keysOf (init_ratings tbl subs)).Nodup := by
  induction subs with
  | nil => intro tbl h; exact h
  | cons s0 rest ih =>
    intro tbl hnd
    rw [init_ratings_cons]
    apply ih
    split
    · exact hnd
    · next hcont =>
      have hk : s0.miner_hotkey ∉ keysOf tbl :=
        fun hm => hcont ((dictContains_iff _ _).mpr hm)
      rw [keysOf_append_single]
      refine List.Nodup.append hnd (List.nodup_singleton _) ?_
      intro a ha hb
      rw [List.mem_singleton] at hb
      exact hk (hb ▸ ha)

theorem init_get_preserved (subs : List MinerSubmission) :
    ∀ tbl k, k ∈ keysOf tbl →
      dictGet? (init_ratings tbl subs) k = dictGet? tbl k := by
  induction subs with
  | nil => intro tbl k _; rfl
  | cons s0 rest ih =>
    intro tbl k h
    rw [init_ratings_cons]
    split
    · exact ih tbl k h
    · rw [ih _ k (by rw [keysOf_append_single]; exact List.mem_append_left _ h)]
      exact dictGet?_append_left tbl _ k h

theorem init_get_outside (subs : List MinerSubmission) :
    ∀ tbl k, (∀ s ∈ subs, s.miner_hotkey ≠ k) →
      dictGet? (init_ratings tbl subs) k = dictGet? tbl k := by
  induction subs with
  | nil => intro tbl k _; rfl
  | cons s0 rest ih =>
    intro tbl k h
    have h0 : s0.miner_hotkey ≠ k := h s0 (List.mem_cons_self _ _)
    rw [init_ratings_cons, ih _ k fun s hs => h s (List.mem_cons_of_mem _ hs)]
    split
    · rfl
    · by_cases hk : k ∈ keysOf tbl
      · exact dictGet?_append_left tbl _ k hk
      · rw [dictGet?_append_right tbl _ k hk, dictGet?_eq_none tbl k hk]
        rw [dictGet?, if_neg (by simpa using fun he => h0 he)]
        rfl

theorem init_get_new (subs : List MinerSubmission) :
    ∀ tbl, ∀ s ∈ subs, s.miner_hotkey ∉ keysOf tbl →
      dictGet? (init_ratings tbl subs) s.miner_hotkey = some create_rating := by
  induction subs with
  | nil => intro tbl s h; simp at h
  | cons s0 rest ih =>
    intro tbl s hs hnot
    rw [init_ratings_cons]
    rcases List.mem_cons.mp hs with rfl | hrest
    · have hcont : ¬ (dictContains tbl s.miner_hotkey = true) :=
        fun hc => hnot ((dictContains_iff _ _).mp hc)
      rw [if_neg hcont]
      rw [init_get_preserved rest _ s.miner_hotkey
        (by rw [keysOf_append_single]; exact List.mem_append_right _ (List.mem_singleton.mpr rfl))]
      rw [dictGet?_append_right tbl _ s.miner_hotkey hnot]
      rw [dictGet?, if_pos (beq_iff_eq.mpr rfl)]
    · split
      · exact ih tbl s hrest hnot
      · by_cases heq : s.miner_hotkey = s0.miner_hotkey
        · rw [init_get_preserved rest _ s.miner_hotkey
            (by rw [keysOf_append_single, heq]; exact List.mem_append_right _ (List.mem_singleton.mpr rfl))]
          rw [dictGet?_append_right tbl _ s.miner_hotkey hnot]
          rw [dictGet?, if_pos (beq_iff_eq.mpr heq.symm)]
        · apply ih _ s hrest
          rw [keysOf_append_single]
          intro hmem
          rcases List.mem_append.mp hmem with h1 | h2
          · exact hnot h1
          · exact heq (List.mem_singleton.mp h2)

theorem groups_keys_sub (tbl : List (String × Rating)) (raw : List (String × ℚ)) :
    ∀ p ∈ ratings_groups_of tbl raw, p.1 ∈ keysOf tbl ∧ p.1 ∈ keysOf raw := by
  intro p hp
  rw [ratings_groups_of] at hp
  have hmem := List.mem_of_mem_filter hp
  have hcond := List.of_mem_filter hp
  exact ⟨List.mem_map_of_mem Prod.fst hmem, (dictContains_iff _ _).mp hcond⟩

theorem foldl_rawset_keys (L : List (ℚ × MinerSubmission)) :
    ∀ (d : List (String × ℚ)) k,
      k ∈ keysOf (L.foldl (fun d p => dictSet d p.2.miner_hotkey p.1) d) →
      k ∈ keysOf d ∨ ∃ pr ∈ L, pr.2.miner_hotkey = k := by
  induction L with
  | nil => intro d k h; exact Or.inl h
  | cons p t ih =>
    intro d k h
    rw [List.foldl_cons] at h
    rcases ih _ k h with h1 | ⟨pr, hpr, hprk⟩
    · rcases dictSet_keys_sub d _ _ k h1 with h3 | h3
      · exact Or.inl h3
      · exact Or.inr ⟨p, List.mem_cons_self _ _, h3.symm⟩
    · exact Or.inr ⟨pr, List.mem_cons_of_mem _ hpr, hprk⟩

theorem raw_scores_keys_sub (subs : List MinerSubmission) (fs : List ℚ) :
    ∀ k ∈ keysOf (raw_scores_of subs fs), ∃ s ∈ subs, s.miner_hotkey = k := by
  intro k h
  rw [raw_scores_of] at h
  rcases foldl_rawset_keys _ [] k h with h1 | ⟨pr, hpr, hprk⟩
  · simp [keysOf] at h1
  · exact ⟨pr.2, (List.of_mem_zip hpr).2, hprk⟩

theorem update_ratings_keys
    (rate : List (String × Rating) → List ℕ → List (String × Rating))
    (hrate : ∀ gs rs, keysOf (rate gs rs) = keysOf gs)
    (tbl : List (String × Rating)) (subs : List MinerSubmission) (fs : List ℚ) :
    keysOf (update_ratings rate tbl subs fs) = keysOf tbl := by
  simp only [update_ratings]
  apply foldl_dictSet_keys
  intro p hp
  have h1 : p.1 ∈ keysOf (rate (ratings_groups_of tbl (raw_scores_of subs fs)) _) :=
    List.mem_map_of_mem Prod.fst hp
  rw [hrate] at h1
  obtain ⟨q, hq, hq1⟩ := List.mem_map.mp h1
  exact hq1 ▸ (groups_keys_sub tbl _ q hq).1

theorem update_ratings_get_outside
    (rate : List (String × Rating) → List ℕ → List (String × Rating))
    (hrate : ∀ gs rs, keysOf (rate gs rs) = keysOf gs)
    (tbl : List (String × Rating)) (subs : List MinerSubmission) (fs : List ℚ)
    (k : String) (hk : ∀ s ∈ subs, s.miner_hotkey ≠ k) :
    dictGet? (update_ratings rate tbl subs fs) k = dictGet? tbl k := by
  simp only [update_ratings]
  apply foldl_dictSet_get_ne
  intro p hp heq
  have h1 : p.1 ∈ keysOf (rate (ratings_groups_of tbl (raw_scores_of subs fs)) _) :=
    List.mem_map_of_mem Prod.fst hp
  rw [hrate] at h1
  obtain ⟨q, hq, hq1⟩ := List.mem_map.mp h1
  obtain ⟨s, hs, hsk⟩ := raw_scores_keys_sub subs fs q.1 (groups_keys_sub tbl _ q hq).2
  exact hk s hs (by rw [hsk, hq1, heq])

theorem grade_table_keys
    (rate : List (String × Rating) → List ℕ → List (String × Rating))
    (hrate : ∀ gs rs, keysOf (rate gs rs) = keysOf gs)
    (st : TrueSkillGrader) (subs : List MinerSubmission) (fs : List ℚ) :
    keysOf (grade_table rate st subs fs) = keysOf (init_ratings st.ratings subs) := by
  rw [grade_table]
  generalize grade_num_runs st = n
  induction n with
  | zero => rfl
  | succ m ih =>
    rw [Function.iterate_succ_apply', update_ratings_keys rate hrate]
    exact ih

theorem grade_table_get_outside
    (rate : List (String × Rating) → List ℕ → List (String × Rating))
    (hrate : ∀ gs rs, keysOf (rate gs rs) = keysOf gs)
    (st : TrueSkillGrader) (subs : List MinerSubmission) (fs : List ℚ)
    (k : String) (hk : ∀ s ∈ subs, s.miner_hotkey ≠ k) :
    dictGet? (grade_table rate st subs fs) k =
      dictGet? (init_ratings st.ratings subs) k := by
  rw [grade_table]
  generalize grade_num_runs st = n
  induction n with
  | zero => rfl
  | succ m ih =>
    rw [Function.iterate_succ_apply',
      update_ratings_get_outside rate hrate _ subs fs k hk]
    exact ih

/-! ## Claim C9: round bookkeeping invariants -/

/-- C9: assuming the `trueskill.rate` contract (it returns one rating
group per input group with the same keys) and a well-formed rating table,
after one `grade` call every participant in the round's submissions has
exactly one entry in the rating table, every participant not in this
round's submissions keeps an unchanged rating entry, each new participant
is created with the library-default rating during initialization, and the
reward vector has exactly one entry per submission (in submission order,
since it is a `List.map` over the submissions). -/
theorem C9_round_bookkeeping
    (rate : List (String × Rating) → List ℕ → List (String × Rating))
    (fg : List MinerSubmission → List ℚ)
    (st : TrueSkillGrader) (subs : List MinerSubmission)
    (hrate : ∀ gs rs, keysOf (rate gs rs) = keysOf gs)
    (hnd : (keysOf st.ratings).Nodup) :
    (∀ s ∈ subs,
      ((grade rate fg st subs).1.ratings.filter
        (fun p => p.1 == s.miner_hotkey)).length = 1) ∧
    (∀ s ∈ subs, s.miner_hotkey ∉ keysOf st.ratings →
      dictGet? (init_ratings st.ratings subs) s.miner_hotkey = some create_rating) ∧
    (∀ k, (∀ s ∈ subs, s.miner_hotkey ≠ k) →
      dictGet? (grade rate fg st subs).1.ratings k = dictGet? st.ratings k) ∧
    (grade rate fg st subs).2.length = subs.length ∧
    (grade rate fg st subs).2 = subs.map (fun s =>
      sigmoid (apha *
        ((conservative ((dictGet? (grade rate fg st subs).1.ratings s.miner_hotkey).getD create_rating) -
          mean_conservative (grade rate fg st subs).1.ratings : ℚ) : ℝ))) := by
  have htbl : (grade rate fg st subs).1.ratings =
      grade_table rate st subs (fg subs) := rfl
  have hkeys := grade_table_keys rate hrate st subs (fg subs)
  refine ⟨?_, ?_, ?_, ?_, ?_⟩
  · intro s hs
    rw [htbl]
    apply filter_key_length_one
    · rw [hkeys]
      exact init_nodup subs st.ratings hnd
    · rw [hkeys]
      exact init_mem subs st.ratings s hs
  · intro s hs hnot
    exact init_get_new subs st.ratings s hs hnot
  · intro k hk
    rw [htbl, grade_table_get_outside rate hrate st subs (fg subs) k hk]
    exact init_get_outside subs st.ratings k hk
  · rw [show (grade rate fg st subs).2 =
        (grade_args rate fg st subs).2.map (fun (q : ℚ) => sigmoid (apha * (q : ℝ)))
      from rfl]
    rw [List.length_map]
    rw [show (grade_args rate fg st subs).2 = subs.map (fun s =>
        conservative ((dictGet? (grade_table rate st subs (fg subs)) s.miner_hotkey).getD create_rating) -
          mean_conservative (grade_table rate st subs (fg subs))) from rfl]
    rw [List.length_map]
  · exact grade_rewards_eq rate fg st subs

/-- C9 witness. -/
theorem C9_round_bookkeeping_witness :
    ((grade rate_id fg_one { ratings := [], num_runs := 0 } [subA]).1.ratings.filter
      (fun p => p.1 == subA.miner_hotkey)).length = 1 ∧
    (grade rate_id fg_one { ratings := [], num_runs := 0 } [subA]).2.length = 1 := by
  have h := C9_round_bookkeeping rate_id fg_one
    { ratings := [], num_runs := 0 } [subA] (fun gs rs => rfl) (by simp [keysOf])
  exact ⟨h.1 subA (List.mem_cons_self _ _), h.2.2.2.1⟩

end Agentao

